import Mathlib

/-!
# Verification of the POS-based MATTR calculator (`app.py`)

Shallow embedding of the analysis core of the application: the regex
fallback tokenizer `simple_tokenize`, the rule-based tagger
`simple_pos_categorize`, the extraction helper `extract_pos_simple`, the
MATTR engine `calculate_mattr` (fixed window size 11), the per-file
report rows and the CSV table.  Real-number results are modelled with `ℚ`.
-/

namespace MattrApp

/-- A character matched by the regex character class `[a-z0-9]` of the
pattern in `simple_tokenize` (`re.findall(r'\b[a-z0-9]+\b', text)`). -/
def tokChar (c : Char) : Bool :=
  (97 ≤ c.toNat && c.toNat ≤ 122) || (48 ≤ c.toNat && c.toNat ≤ 57)

/-- A regex word character (`\w`: ASCII letter, digit or underscore); the
`\b` assertions of the pattern test adjacent characters for this. -/
def wordChar (c : Char) : Bool :=
  (97 ≤ c.toNat && c.toNat ≤ 122) || (65 ≤ c.toNat && c.toNat ≤ 90) ||
    (48 ≤ c.toNat && c.toNat ≤ 57) || (c.toNat == 95)

/-- The left-to-right scan of `re.findall(r'\b[a-z0-9]+\b', s)`.
`prevWord` records whether the character before the current position is a
word character; `acc`, when set, holds (reversed) the `[a-z0-9]` run
matched so far, which started at a position where `\b` held.  A run that
starts where `\b` fails can never be matched (nor can any of its suffixes,
since `\b` fails inside a run), so the scan just walks over it; a matched
run is emitted only when the character that ends it is not a word
character (the final `\b`), and at end of input (where `\b` holds). -/
def findallAux (p : Char → Bool) (w : Char → Bool) :
    Option (List Char) → Bool → List Char → List (List Char)
  | acc, _, [] => (match acc with | some run => [run.reverse] | none => [])
  | acc, prevWord, c :: cs =>
    if p c then
      match acc with
      | some run => findallAux p w (some (c :: run)) true cs
      | none =>
        if prevWord then findallAux p w none true cs
        else findallAux p w (some [c]) true cs
    else
      (match acc with
        | some run => if w c then [] else [run.reverse]
        | none => []) ++ findallAux p w none (w c) cs

/-- `simple_tokenize` from app.py: lowercase the text (Python `str.lower`,
modelled per character) and find all `\b[a-z0-9]+\b` matches. -/
def simple_tokenize (text : String) : List String :=
  (findallAux tokChar wordChar none false (text.data.map Char.toLower)).map
    (fun cs => String.mk cs)

/-- `token.endswith(sfx)` (Python), on the character lists of the two
strings. -/
def pyEndsWith (token sfx : String) : Bool :=
  sfx.data.isSuffixOf token.data

/-- `tag.startswith(pre)` (Python), on the character lists of the two
strings. -/
def pyStartsWith (tag pre : String) : Bool :=
  pre.data.isPrefixOf tag.data

/-- The verb suffix tuple of `simple_pos_categorize`. -/
def verbSuffixes : List String := ["ed", "ing", "ize", "ise", "ate", "en"]

/-- The closed verb list of `simple_pos_categorize`. -/
def verbWords : List String :=
  ["is", "am", "are", "was", "were", "be", "been", "being",
   "have", "has", "had", "do", "does", "did", "go", "goes", "went",
   "see", "saw", "seen", "come", "came", "run", "ran", "get", "got",
   "make", "made", "take", "took", "give", "gave", "live", "say",
   "said", "tell", "told", "find", "found", "think", "thought",
   "know", "knew", "want", "put", "read", "write", "wrote"]

/-- The adjective suffix tuple of `simple_pos_categorize`. -/
def adjSuffixes : List String := ["able", "ible", "al", "ful", "ic", "ive", "less", "ous"]

/-- The closed adjective list of `simple_pos_categorize`. -/
def adjWords : List String :=
  ["good", "bad", "new", "old", "high", "low", "big", "small", "large",
   "little", "long", "short", "great", "best", "better", "worst", "worse",
   "nice", "fine", "happy", "sad", "hot", "cold", "warm", "cool", "slow",
   "fast", "easy", "hard", "early", "late", "young", "red", "blue", "green",
   "black", "white", "dark", "light", "rich", "poor", "real", "true", "false"]

/-- The closed adverb list of `simple_pos_categorize` (its suffix test is
the single suffix `ly`). -/
def advWords : List String :=
  ["very", "too", "so", "quite", "well", "now", "then", "here", "there",
   "just", "only", "also", "even", "still", "again", "already", "always",
   "never", "often", "sometimes", "usually", "today", "tomorrow", "yesterday",
   "soon", "later", "early", "fast", "hard", "away", "back", "up", "down",
   "in", "out", "off", "on", "over", "under"]

/-- The noun suffix tuple of `simple_pos_categorize`. -/
def nounSuffixes : List String :=
  ["tion", "sion", "ment", "ness", "ity", "ship", "dom", "er", "or", "ian", "ist"]

/-- The closed noun list of `simple_pos_categorize`. -/
def nounWords : List String :=
  ["time", "year", "day", "man", "woman", "child", "person", "world", "life",
   "hand", "part", "place", "case", "group", "company", "party", "school",
   "country", "state", "family", "money", "night", "water", "thing", "name",
   "book", "room", "area", "point", "house", "home", "job", "line", "end",
   "city", "car", "team", "word", "game", "food", "paper", "music", "problem"]

/-- The verb test of `simple_pos_categorize`:
`token.endswith(('ed', 'ing', 'ize', 'ise', 'ate', 'en')) or token in [...]`. -/
def verbMatch (token : String) : Bool :=
  verbSuffixes.any (fun s => pyEndsWith token s) || verbWords.contains token

/-- The adjective test of `simple_pos_categorize`. -/
def adjMatch (token : String) : Bool :=
  adjSuffixes.any (fun s => pyEndsWith token s) || adjWords.contains token

/-- The adverb test of `simple_pos_categorize`:
`token.endswith('ly') or token in [...]`. -/
def advMatch (token : String) : Bool :=
  pyEndsWith token "ly" || advWords.contains token

/-- The noun test of `simple_pos_categorize`. -/
def nounMatch (token : String) : Bool :=
  nounSuffixes.any (fun s => pyEndsWith token s) || nounWords.contains token

/-- `simple_pos_categorize` from app.py: the `if/elif` chain, in source
order, with `'NN'` as the default of the final `else`. -/
def simple_pos_categorize (token : String) : String :=
  if verbMatch token then "VB"
  else if adjMatch token then "JJ"
  else if advMatch token then "RB"
  else if nounMatch token then "NN"
  else "NN"

/-- `extract_pos_simple` from app.py: tokenize, tag every token, and keep
the tokens whose tag starts with the requested tag
prefix.  (The `isinstance` coercion and the `try/except` wrapper around
this pure computation are dead in the model: none of these operations can
raise.) -/
def extract_pos_simple (text : String) ( pos_prefix : String) : List String :=
  let tokens := simple_tokenize text
  let tagged := tokens.map (fun token => (token, simple_pos_categorize token))
  (tagged.filter (fun wt => pyStartsWith wt.2 pos_prefix)).map (fun wt => wt.1)

/-- `calculate_mattr` from app.py: fixed window size 11; `0` on the empty
list; plain type-token ratio below the window size; otherwise the mean
(`np.mean`, modelled as sum over length) of the distinct-count ratios of
all sliding windows of size 11. -/
def calculate_mattr (words : List String) : ℚ :=
  if words = [] then 0
  else if words.length < 11 then (words.toFinset.card : ℚ) / (words.length : ℚ)
  else
    let ratios := (List.range (words.length - 11 + 1)).map
      (fun i => (((words.drop i).take 11).toFinset.card : ℚ) / (11 : ℚ))
    if ratios = [] then 0 else ratios.sum / (ratios.length : ℚ)

/-- The `pos_categories` dict of app.py, in its (insertion-ordered) key
order. -/
def pos_categories : List (String × String) :=
  [("Verb", "VB"), ("Noun", "NN"), ("Adjective", "JJ"), ("Adverb", "RB")]

/-- The replacement character U+FFFD that `errors='replace'` substitutes
for undecodable bytes. -/
def replacementChar : Char := Char.ofNat 65533

/-- State of the streaming UTF-8 decoder between two bytes: `none` when
no multi-byte sequence is open, otherwise the scalar value accumulated so
far, the number of continuation bytes still expected, and the admissible
range of the next byte.  The range is `0xA0`-`0xBF` after a `0xE0` lead
and `0x80`-`0x9F` after `0xED` (ruling out overlong encodings and
surrogates), `0x90`-`0xBF` after `0xF0` and `0x80`-`0x8F` after `0xF4`
(ruling out overlong encodings and values beyond U+10FFFF), and the plain
continuation range `0x80`-`0xBF` everywhere else. -/
def Utf8State := Option (ℕ × ℕ × ℕ × ℕ)

/-- Decoding of a byte that arrives with no sequence open: ASCII is
emitted directly, a valid lead byte opens a sequence, anything else
(a stray continuation byte, `0xC0`/`0xC1`, or `0xF5`-`0xFF`) is one
U+FFFD. -/
def utf8Lead (b : ℕ) : Utf8State × List Char :=
  if b < 128 then (none, [Char.ofNat b])
  else if 194 ≤ b && b ≤ 223 then (some (b - 192, 1, 128, 191), [])
  else if 224 ≤ b && b ≤ 239 then
    (some (b - 224, 2, if b = 224 then 160 else 128, if b = 237 then 159 else 191), [])
  else if 240 ≤ b && b ≤ 244 then
    (some (b - 240, 3, if b = 240 then 144 else 128, if b = 244 then 143 else 191), [])
  else (none, [replacementChar])

/-- One byte of `bytes.decode('utf-8', errors='replace')`: the new state
and the characters emitted.  An invalid byte closes the open sequence
with one U+FFFD for its maximal valid subpart (CPython's behaviour) and
is then reconsidered as a fresh lead byte. -/
def utf8Step : Utf8State → ℕ → Utf8State × List Char
  | none, b => utf8Lead b
  | some (acc, rem, lo, hi), b =>
    if lo ≤ b && b ≤ hi then
      if rem ≤ 1 then (none, [Char.ofNat (acc * 64 + (b - 128))])
      else (some (acc * 64 + (b - 128), rem - 1, 128, 191), [])
    else
      match utf8Lead b with
      | (st, cs) => (st, replacementChar :: cs)

/-- The streaming decoder over a byte list; an incomplete sequence at end
of input is one more maximal subpart, replaced by U+FFFD. -/
def utf8DecodeAux : Utf8State → List ℕ → List Char
  | st, [] => (match st with | some _ => [replacementChar] | none => [])
  | st, b :: rest =>
    match utf8Step st b with
    | (st1, cs) => cs ++ utf8DecodeAux st1 rest

/-- `bytes.decode('utf-8', errors='replace')`: standard UTF-8 decoding
where every maximal subpart of an ill-formed sequence is replaced by
U+FFFD instead of raising. -/
def utf8DecodeReplace (bytes : List ℕ) : List Char :=
  utf8DecodeAux none bytes

/-- Round to an integer, ties to even: the rounding of Python's `format`. -/
def roundHalfEven (x : ℚ) : ℤ :=
  let f := ⌊x⌋
  let r := x - (f : ℚ)
  if r < 1 / 2 then f
  else if 1 / 2 < r then f + 1
  else if f % 2 = 0 then f else f + 1

/-- `f"{x:.4f}"` for the nonnegative values this program formats: round
`x` to four decimal places and print the integer part, a dot, and the
four (zero-padded) fraction digits. -/
def format4 (x : ℚ) : String :=
  let n := (roundHalfEven (x * 10000)).toNat
  toString (n / 10000) ++ "." ++ toString (n / 1000 % 10) ++
    toString (n / 100 % 10) ++ toString (n / 10 % 10) ++ toString (n % 10)

/-- The CSV header built in app.py: `'File Name'` then, for each category
in `pos_categories` order, its Types, Tokens and MATTR columns. -/
def header : List String :=
  "File Name" ::
    pos_categories.flatMap (fun pc => [pc.1 ++ " Types", pc.1 ++ " Tokens", pc.1 ++ " MATTR"])

/-- One data row of the report, as built in the per-file loop of app.py:
the file name followed, for each category, by the type count, the token
count and the MATTR value formatted to four decimal places. -/
def fileRow (filename : String) (content : String) : List String :=
  filename ::
    pos_categories.flatMap (fun pc =>
      let words := extract_pos_simple content pc.2
      [toString words.toFinset.card, toString words.length,
        format4 (calculate_mattr words)])

/-- The per-file loop of app.py over a batch of uploaded files (name and
raw bytes): each file's bytes are decoded with `errors='replace'` and the
file produces exactly one data row. -/
def processFiles (files : List (String × List ℕ)) : List (List String) :=
  files.map (fun f => fileRow f.1 (String.mk (utf8DecodeReplace f.2)))

/-- The CSV table written by `csv_writer`: the header row followed by one
data row per file. -/
def csvTable (files : List (String × List ℕ)) : List (List String) :=
  header :: processFiles files

/-- Modelled from the spec: `calculate_category_mattr(category_tokens,
all_tokens, window_size)` does not occur anywhere in src/app.py; this
definition follows the contract in spec §4.3 word for word.  If either
sequence is shorter than the window, the result is the category's
distinct count divided by the FULL token count; otherwise it is the
unweighted mean of the distinct-count ratios of the sliding windows of
the category-filtered sequence. -/
def calculate_category_mattr (category_tokens all_tokens : List String)
    (window_size : ℕ) : ℚ :=
  if category_tokens.length < window_size ∨ all_tokens.length < window_size then
    (category_tokens.toFinset.card : ℚ) / (all_tokens.length : ℚ)
  else
    let ratios := (List.range (category_tokens.length - window_size + 1)).map
      (fun i => (((category_tokens.drop i).take window_size).toFinset.card : ℚ) /
        (window_size : ℚ))
    ratios.sum / (ratios.length : ℚ)

/-- An ASCII alphanumeric character, as in the spec's description of the
fallback tokenizer ("maximal runs of ASCII alphanumeric characters"). -/
def asciiAlnum (c : Char) : Bool :=
  (65 ≤ c.toNat && c.toNat ≤ 90) || (97 ≤ c.toNat && c.toNat ≤ 122) ||
    (48 ≤ c.toNat && c.toNat ≤ 57)

/-- The maximal runs of characters satisfying `p`, in source order: the
spec's description of what the fallback tokenizer extracts. -/
def maximalRuns (p : Char → Bool) : List Char → List (List Char)
  | [] => []
  | [c] => if p c then [[c]] else []
  | c :: d :: cs =>
    let rest := maximalRuns p (d :: cs)
    if p c then
      if p d then (c :: rest.headD []) :: rest.tail
      else [c] :: rest
    else rest

/-! ## Helper lemmas -/

theorem list_range_map_sum (n : ℕ) (f : ℕ → ℚ) :
    ((List.range n).map f).sum = ∑ i in Finset.range n, f i := by
  induction n with
  | zero => simp
  | succ m ih =>
    rw [List.range_succ, List.map_append, List.sum_append, Finset.sum_range_succ, ih]
    simp

theorem calculate_mattr_slide (words : List String) (h : 11 ≤ words.length) :
    calculate_mattr words =
      (∑ i in Finset.range (words.length - 11 + 1),
        (((words.drop i).take 11).toFinset.card : ℚ) / 11) /
        ((words.length - 11 + 1 : ℕ) : ℚ) := by
  have h1 : words ≠ [] := by
    intro e
    rw [e] at h
    simp at h
  have h2 : ¬ words.length < 11 := by omega
  rw [calculate_mattr]
  simp only [if_neg h1, if_neg h2]
  have h3 : ((List.range (words.length - 11 + 1)).map
      (fun i => (((words.drop i).take 11).toFinset.card : ℚ) / (11 : ℚ))) ≠ [] := by
    intro e
    have := congrArg List.length e
    simp at this
  rw [if_neg h3, list_range_map_sum]
  simp

theorem calculate_mattr_nonneg (words : List String) : 0 ≤ calculate_mattr words := by
  by_cases h : 11 ≤ words.length
  · rw [calculate_mattr_slide words h]
    apply div_nonneg _ (by positivity)
    apply Finset.sum_nonneg
    intro i _
    positivity
  · rw [calculate_mattr]
    split_ifs with h1 h2
    · exact le_refl 0
    · positivity
    · omega

theorem calculate_mattr_le_one (words : List String) : calculate_mattr words ≤ 1 := by
  by_cases h : 11 ≤ words.length
  · rw [calculate_mattr_slide words h]
    have hpos : 0 < words.length - 11 + 1 := by omega
    rw [div_le_one (by exact_mod_cast hpos)]
    calc (∑ i in Finset.range (words.length - 11 + 1),
          (((words.drop i).take 11).toFinset.card : ℚ) / 11)
        ≤ (Finset.range (words.length - 11 + 1)).card • (1 : ℚ) := by
          apply Finset.sum_le_card_nsmul
          intro i _
          rw [div_le_one (by norm_num)]
          have hlen : ((words.drop i).take 11).length ≤ 11 := List.length_take_le 11 _
          have hcard := List.toFinset_card_le ((words.drop i).take 11)
          exact_mod_cast hcard.trans hlen
      _ = ((words.length - 11 + 1 : ℕ) : ℚ) := by simp
  · rw [calculate_mattr]
    split_ifs with h1 h2
    · norm_num
    · have hpos : 0 < words.length := List.length_pos.mpr h1
      rw [div_le_one (by exact_mod_cast hpos)]
      exact_mod_cast List.toFinset_card_le words
    · omega

theorem window_reverse (words : List String) (i : ℕ) (hi : i ≤ words.length - 11)
    (h : 11 ≤ words.length) :
    ((words.reverse.drop i).take 11).toFinset =
      ((words.drop (words.length - 11 - i)).take 11).toFinset := by
  rw [List.drop_reverse, List.take_reverse, List.toFinset_reverse, List.length_take]
  have hmin : min (words.length - i) words.length = words.length - i :=
    min_eq_left (by omega)
  rw [hmin, List.drop_take]
  have e2 : words.length - i - (words.length - i - 11) = 11 := by omega
  have e1 : words.length - i - 11 = words.length - 11 - i := by omega
  rw [e2, e1]

theorem mattr_reverse (words : List String) :
    calculate_mattr words.reverse = calculate_mattr words := by
  by_cases h : 11 ≤ words.length
  · have hr : 11 ≤ words.reverse.length := by simpa using h
    rw [calculate_mattr_slide _ hr, calculate_mattr_slide _ h, List.length_reverse]
    congr 1
    have key : ∀ i ∈ Finset.range (words.length - 11 + 1),
        (((words.reverse.drop i).take 11).toFinset.card : ℚ) / 11 =
          (((words.drop (words.length - 11 - i)).take 11).toFinset.card : ℚ) / 11 := by
      intro i hi
      simp only [Finset.mem_range] at hi
      rw [window_reverse words i (by omega) h]
    rw [Finset.sum_congr rfl key]
    have hreflect := Finset.sum_range_reflect
      (fun j => (((words.drop j).take 11).toFinset.card : ℚ) / 11) (words.length - 11 + 1)
    simpa [Nat.add_sub_cancel] using hreflect
  · rcases eq_or_ne words [] with rfl | hne
    · rfl
    · have hner : words.reverse ≠ [] := by simpa
      have hlt : words.length < 11 := by omega
      have hltr : words.reverse.length < 11 := by simpa using hlt
      rw [calculate_mattr, calculate_mattr, if_neg hner, if_neg hne, if_pos hltr, if_pos hlt,
        List.toFinset_reverse, List.length_reverse]

theorem mattr_perm_degenerate (ws ws' : List String) (hp : ws.Perm ws')
    (h : ws.length < 11) : calculate_mattr ws = calculate_mattr ws' := by
  rcases eq_or_ne ws [] with rfl | hne
  · rw [List.Perm.eq_nil hp.symm]
  · have hne' : ws' ≠ [] := by
      intro e
      rw [e] at hp
      exact hne hp.eq_nil
    have h' : ws'.length < 11 := hp.length_eq ▸ h
    rw [calculate_mattr, calculate_mattr, if_neg hne, if_neg hne', if_pos h, if_pos h',
      List.toFinset_eq_of_perm _ _ hp, hp.length_eq]

/-! ## Claim theorems -/

/-- C1: `calculate_mattr` implements the specified MATTR algorithm with
window size 11: it returns 0 on the empty list; the plain type-token
ratio `|distinct| / n` for `0 < n < 11`; the unweighted arithmetic mean
of `|distinct(words[i..i+10])| / 11` over every start index
`i ∈ [0, n - 11]` for `n ≥ 11`; and in particular `|distinct| / 11` when
`n = 11` (exactly one window). -/
theorem calculate_mattr_spec (words : List String) :
    (words.length = 0 → calculate_mattr words = 0) ∧
    (words ≠ [] → words.length < 11 →
      calculate_mattr words = (words.toFinset.card : ℚ) / (words.length : ℚ)) ∧
    (11 ≤ words.length →
      calculate_mattr words =
        (∑ i in Finset.range (words.length - 11 + 1),
          (((words.drop i).take 11).toFinset.card : ℚ) / 11) /
          ((words.length - 11 + 1 : ℕ) : ℚ)) ∧
    (words.length = 11 →
      calculate_mattr words = (words.toFinset.card : ℚ) / 11) := by
  refine ⟨?_, ?_, ?_, ?_⟩
  · intro h
    rw [calculate_mattr, if_pos (List.length_eq_zero.mp h)]
  · intro h1 h2
    rw [calculate_mattr, if_neg h1, if_pos h2]
  · exact calculate_mattr_slide words
  · intro h
    rw [calculate_mattr_slide words (by omega), h]
    norm_num [Finset.sum_range_one, List.take_of_length_le h.le]

/-- C2: for every result row of the per-file loop, the type count is at
most the token count; the MATTR value lies in `[0, 1]` when the token
count is positive; and a category with zero tokens yields the row
Types = 0, Tokens = 0, MATTR = 0 (no division happens: `calculate_mattr`
returns 0 before dividing). -/
theorem row_invariants (content : String) ( pos_prefix : String) :
    (extract_pos_simple content pos_prefix).toFinset.card ≤
      (extract_pos_simple content pos_prefix).length ∧
    (0 < (extract_pos_simple content pos_prefix).length →
      0 ≤ calculate_mattr (extract_pos_simple content pos_prefix) ∧
        calculate_mattr (extract_pos_simple content pos_prefix) ≤ 1) ∧
    ((extract_pos_simple content pos_prefix).length = 0 →
      (extract_pos_simple content pos_prefix).toFinset.card = 0 ∧
        calculate_mattr (extract_pos_simple content pos_prefix) = 0) := by
  refine ⟨List.toFinset_card_le _, ?_, ?_⟩
  · intro _
    exact ⟨calculate_mattr_nonneg _, calculate_mattr_le_one _⟩
  · intro h
    have he : extract_pos_simple content pos_prefix = [] := List.length_eq_zero.mp h
    rw [he]
    exact ⟨by simp, by rw [calculate_mattr, if_pos rfl]⟩

/-- C2 witness: the invariants instantiated on a concrete document and
category. -/
theorem row_invariants_witness :
    0 < (extract_pos_simple "the cat sat" "NN").length ∧
      (0 ≤ calculate_mattr (extract_pos_simple "the cat sat" "NN") ∧
        calculate_mattr (extract_pos_simple "the cat sat" "NN") ≤ 1) := by
  refine ⟨by decide, (row_invariants "the cat sat" "NN").2.1 (by decide)⟩

/-- C3: `simple_pos_categorize` evaluates its rules in the fixed order
Verb, Adjective, Adverb, Noun, returning at the first match and
defaulting to `'NN'`; the token `"runner"` fails the Verb, Adjective and
Adverb checks and resolves to Noun. -/
theorem pos_priority :
    (∀ token, verbMatch token = true → simple_pos_categorize token = "VB") ∧
    (∀ token, verbMatch token = false → adjMatch token = true →
      simple_pos_categorize token = "JJ") ∧
    (∀ token, verbMatch token = false → adjMatch token = false → advMatch token = true →
      simple_pos_categorize token = "RB") ∧
    (∀ token, verbMatch token = false → adjMatch token = false → advMatch token = false →
      simple_pos_categorize token = "NN") ∧
    verbMatch "runner" = false ∧ adjMatch "runner" = false ∧ advMatch "runner" = false ∧
      simple_pos_categorize "runner" = "NN" := by
  refine ⟨?_, ?_, ?_, ?_, by decide, by decide, by decide, by decide⟩
  · intro token h
    simp [simple_pos_categorize, h]
  · intro token h1 h2
    simp [simple_pos_categorize, h1, h2]
  · intro token h1 h2 h3
    simp [simple_pos_categorize, h1, h2, h3]
  · intro token h1 h2 h3
    simp [simple_pos_categorize, h1, h2, h3]

/-- C6: `calculate_category_mattr` returns the category's distinct count
over the FULL token count when either sequence is shorter than the
window, and otherwise the mean of the sliding-window distinct-count
ratios of the category sequence. -/
theorem calculate_category_mattr_spec (category_tokens all_tokens : List String)
    (window_size : ℕ) :
    (category_tokens.length < window_size ∨ all_tokens.length < window_size →
      calculate_category_mattr category_tokens all_tokens window_size =
        (category_tokens.toFinset.card : ℚ) / (all_tokens.length : ℚ)) ∧
    (window_size ≤ category_tokens.length → window_size ≤ all_tokens.length →
      calculate_category_mattr category_tokens all_tokens window_size =
        (∑ i in Finset.range (category_tokens.length - window_size + 1),
          (((category_tokens.drop i).take window_size).toFinset.card : ℚ) /
            (window_size : ℚ)) /
          ((category_tokens.length - window_size + 1 : ℕ) : ℚ)) := by
  constructor
  · intro h
    rw [calculate_category_mattr, if_pos h]
  · intro h1 h2
    rw [calculate_category_mattr, if_neg (by omega)]
    simp only [list_range_map_sum]
    simp

/-- C4 counterexample: reversing never changes `calculate_mattr` — the
windows of the reversed list are the reversed windows of the original
list, taken in reverse order, with the same distinct counts — so no token
list of length ≥ 11 has a reversal-sensitive MATTR value. -/
theorem mattr_reverse_cex :
    ¬ ∃ words : List String, 11 ≤ words.length ∧
      calculate_mattr words.reverse ≠ calculate_mattr words := by
  rintro ⟨w, -, hne⟩
  exact hne (mattr_reverse w)

/-- C4 (amended): in the degenerate branch (length < 11) `calculate_mattr`
is invariant under every permutation; in the sliding-window branch it is
order-sensitive — there are permutations of each other of length ≥ 11
with different values — but reversal, the spec's chosen witness
operation, never changes the value of any list. -/
theorem mattr_order_sensitivity :
    (∀ ws ws' : List String, ws.Perm ws' → ws.length < 11 →
      calculate_mattr ws = calculate_mattr ws') ∧
    (∃ ws ws' : List String, ws.Perm ws' ∧ 11 ≤ ws.length ∧
      calculate_mattr ws ≠ calculate_mattr ws') ∧
    (∀ ws : List String, calculate_mattr ws.reverse = calculate_mattr ws) := by
  refine ⟨mattr_perm_degenerate, ?_, mattr_reverse⟩
  refine ⟨["a"] ++ List.replicate 10 "b" ++ ["c"], ["a", "c"] ++ List.replicate 10 "b",
    ?_, by decide, ?_⟩
  · exact List.Perm.cons _ (List.perm_append_singleton _ _)
  · have h1 : calculate_mattr (["a"] ++ List.replicate 10 "b" ++ ["c"]) = 2 / 11 := by
      simp +decide [calculate_mattr, List.range_succ]
    have h2 : calculate_mattr (["a", "c"] ++ List.replicate 10 "b") = 5 / 22 := by
      simp +decide [calculate_mattr, List.range_succ]
      norm_num
    rw [h1, h2]
    norm_num

/-- C5 counterexample: the category table of the program has no "All"
entry at all, and the tokenizer keeps purely numeric tokens, so a
document of punctuation and numerals does not yield an empty token
sequence. -/
theorem all_category_cex :
    "All" ∉ pos_categories.map Prod.fst ∧ simple_tokenize ", . 123 !" ≠ [] :=
  ⟨by decide, by decide⟩

/-- C5 (amended): the program offers exactly the four categories Verb,
Noun, Adjective and Adverb — no "All words" category — and non-alphabetic
tokens are not excluded: `simple_tokenize` keeps alphanumeric runs
including numerals, so a document containing only punctuation and
numerals yields its numeral tokens, which the default rule files under
Noun. -/
theorem categories_and_numeral_tokens :
    pos_categories.map Prod.fst = ["Verb", "Noun", "Adjective", "Adverb"] ∧
    "All" ∉ pos_categories.map Prod.fst ∧
    simple_tokenize ", . 123 !" = ["123"] ∧
    extract_pos_simple ", . 123 !" "NN" = ["123"] ∧
    extract_pos_simple ", . 123 !" "VB" = [] ∧
    extract_pos_simple ", . 123 !" "JJ" = [] ∧
    extract_pos_simple ", . 123 !" "RB" = [] :=
  ⟨by decide, by decide, by decide, by decide, by decide, by decide, by decide⟩

/-- C8: decoding replaces invalid bytes instead of failing, and every
file of a batch produces exactly one row: in the concrete two-document
batch whose second document starts with the invalid byte `0xFF`, the
report has both rows in upload order, and the invalid document decodes to
a U+FFFD-carrying string whose tokens are still extracted. -/
theorem decode_replace_batch :
    (∀ files : List (String × List ℕ), (processFiles files).length = files.length) ∧
    utf8DecodeReplace [255, 104, 105] = [replacementChar, 'h', 'i'] ∧
    (processFiles [("good.txt", [104, 105]), ("bad.txt", [255, 104, 105])]).length = 2 ∧
    (processFiles [("good.txt", [104, 105]), ("bad.txt", [255, 104, 105])]).map List.head? =
      [some "good.txt", some "bad.txt"] ∧
    simple_tokenize (String.mk (utf8DecodeReplace [255, 104, 105])) = ["hi"] := by
  refine ⟨fun files => by simp [processFiles], by decide, by simp [processFiles], ?_, by decide⟩
  simp [processFiles, fileRow]

theorem digit_toString_len (d : ℕ) (h : d < 10) : (toString d).length = 1 := by
  interval_cases d <;> decide

theorem digit_toString_digits (d : ℕ) (h : d < 10) :
    (toString d).data.all Char.isDigit = true := by
  interval_cases d <;> decide

theorem format4_shape (q : ℚ) :
    ∃ ip fp : String, format4 q = ip ++ "." ++ fp ∧ fp.length = 4 ∧
      fp.data.all Char.isDigit = true := by
  refine ⟨toString ((roundHalfEven (q * 10000)).toNat / 10000),
    toString ((roundHalfEven (q * 10000)).toNat / 1000 % 10) ++
      toString ((roundHalfEven (q * 10000)).toNat / 100 % 10) ++
      toString ((roundHalfEven (q * 10000)).toNat / 10 % 10) ++
      toString ((roundHalfEven (q * 10000)).toNat % 10), ?_, ?_, ?_⟩
  · rw [format4]
    simp [String.append_assoc]
  · have h10 : (0 : ℕ) < 10 := by norm_num
    simp [String.length_append, digit_toString_len _ (Nat.mod_lt _ h10)]
  · have h10 : (0 : ℕ) < 10 := by norm_num
    simp only [String.data_append, List.all_append]
    simp [digit_toString_digits _ (Nat.mod_lt _ h10)]

/-- C9: the exported CSV has the header row `File Name` followed by
`<Category> Types`, `<Category> Tokens`, `<Category> MATTR` for each
category in the fixed enumeration order; one data row per processed
document, in upload order, whose first cell is the file name; each data
row consists of the name and four (types, tokens, mattr) cell triples;
and every MATTR cell is a `format4` value, which always has exactly four
digits after the decimal point. -/
theorem csv_table_spec (files : List (String × List ℕ)) :
    (csvTable files).head? = some ["File Name", "Verb Types", "Verb Tokens", "Verb MATTR",
      "Noun Types", "Noun Tokens", "Noun MATTR", "Adjective Types", "Adjective Tokens",
      "Adjective MATTR", "Adverb Types", "Adverb Tokens", "Adverb MATTR"] ∧
    (csvTable files).length = files.length + 1 ∧
    (csvTable files).tail = processFiles files ∧
    (processFiles files).map List.head? = files.map (fun f => some f.1) ∧
    (∀ name content : String, fileRow name content =
      [name,
        toString (extract_pos_simple content "VB").toFinset.card,
        toString (extract_pos_simple content "VB").length,
        format4 (calculate_mattr (extract_pos_simple content "VB")),
        toString (extract_pos_simple content "NN").toFinset.card,
        toString (extract_pos_simple content "NN").length,
        format4 (calculate_mattr (extract_pos_simple content "NN")),
        toString (extract_pos_simple content "JJ").toFinset.card,
        toString (extract_pos_simple content "JJ").length,
        format4 (calculate_mattr (extract_pos_simple content "JJ")),
        toString (extract_pos_simple content "RB").toFinset.card,
        toString (extract_pos_simple content "RB").length,
        format4 (calculate_mattr (extract_pos_simple content "RB"))]) ∧
    (∀ q : ℚ, ∃ ip fp : String, format4 q = ip ++ "." ++ fp ∧ fp.length = 4 ∧
      fp.data.all Char.isDigit = true) := by
  refine ⟨rfl, by simp [csvTable, processFiles], rfl, ?_, fun name content => rfl,
    format4_shape⟩
  simp [processFiles, fileRow]

theorem extract_eq_filter (text : String) ( pos_prefix : String) :
    extract_pos_simple text pos_prefix =
      (simple_tokenize text).filter
        (fun token => pyStartsWith (simple_pos_categorize token) pos_prefix) := by
  rw [extract_pos_simple]
  simp only [List.filter_map, List.map_map]
  simp [Function.comp_def]

theorem cat_cases (token : String) :
    simple_pos_categorize token = "VB" ∨ simple_pos_categorize token = "JJ" ∨
      simple_pos_categorize token = "RB" ∨ simple_pos_categorize token = "NN" := by
  rw [simple_pos_categorize]
  split_ifs <;> simp

theorem four_filter_length {α : Type} (p q r s : α → Bool) (l : List α)
    (h : ∀ a ∈ l, (p a).toNat + (q a).toNat + (r a).toNat + (s a).toNat = 1) :
    (l.filter p).length + (l.filter q).length + (l.filter r).length +
      (l.filter s).length = l.length := by
  induction l with
  | nil => rfl
  | cons a t ih =>
    have ha := h a (List.mem_cons_self a t)
    have iht := ih (fun x hx => h x (List.mem_cons_of_mem a hx))
    simp only [List.filter_cons]
    cases hp : p a <;> cases hq : q a <;> cases hr : r a <;> cases hs : s a <;>
      rw [hp, hq, hr, hs] at ha <;> simp at ha ⊢ <;> omega

theorem cat_exactly_one (token : String) :
    (pyStartsWith (simple_pos_categorize token) "VB").toNat +
      (pyStartsWith (simple_pos_categorize token) "NN").toNat +
      (pyStartsWith (simple_pos_categorize token) "JJ").toNat +
      (pyStartsWith (simple_pos_categorize token) "RB").toNat = 1 := by
  rcases cat_cases token with h | h | h | h <;> rw [h] <;> decide

/-- C10: `simple_pos_categorize` is total and yields exactly one of the
four tags, so the four per-category lists extracted for the prefixes
`VB`, `NN`, `JJ`, `RB` partition the token stream: each list is the
in-order filter of the tokens by tag, and the four token counts add up
to the total token count. -/
theorem pos_partition (text : String) :
    ((extract_pos_simple text "VB").length + (extract_pos_simple text "NN").length +
      (extract_pos_simple text "JJ").length + (extract_pos_simple text "RB").length =
      (simple_tokenize text).length) ∧
    (∀ token : String, simple_pos_categorize token = "VB" ∨
      simple_pos_categorize token = "JJ" ∨ simple_pos_categorize token = "RB" ∨
      simple_pos_categorize token = "NN") ∧
    (∀ pre : String, extract_pos_simple text pre =
      (simple_tokenize text).filter
        (fun token => pyStartsWith (simple_pos_categorize token) pre)) := by
  refine ⟨?_, cat_cases, fun pre => extract_eq_filter text pre⟩
  rw [extract_eq_filter, extract_eq_filter, extract_eq_filter, extract_eq_filter]
  exact four_filter_length _ _ _ _ _ (fun a _ => cat_exactly_one a)

theorem takeWhile_congr {α : Type} {p q : α → Bool} (l : List α)
    (h : ∀ c ∈ l, p c = q c) : l.takeWhile p = l.takeWhile q := by
  induction l with
  | nil => rfl
  | cons c cs ih =>
    rw [List.takeWhile_cons, List.takeWhile_cons, ← h c (List.mem_cons_self c cs)]
    cases hp : p c <;>
      simp [hp, ih (fun x hx => h x (List.mem_cons_of_mem c hx))]

theorem dropWhile_congr {α : Type} {p q : α → Bool} (l : List α)
    (h : ∀ c ∈ l, p c = q c) : l.dropWhile p = l.dropWhile q := by
  induction l with
  | nil => rfl
  | cons c cs ih =>
    rw [List.dropWhile_cons, List.dropWhile_cons, ← h c (List.mem_cons_self c cs)]
    cases hp : p c <;>
      simp [hp, ih (fun x hx => h x (List.mem_cons_of_mem c hx))]

theorem maximalRuns_cons (p : Char → Bool) (c : Char) (cs : List Char) :
    maximalRuns p (c :: cs) =
      if p c then (c :: cs.takeWhile p) :: maximalRuns p (cs.dropWhile p)
      else maximalRuns p cs := by
  induction cs generalizing c with
  | nil => cases hp : p c <;> simp [hp, maximalRuns]
  | cons d cs' ih =>
    cases hp : p c <;> cases hd : p d <;>
      simp [maximalRuns, ih d, hp, hd, List.takeWhile_cons, List.dropWhile_cons]

theorem findallAux_eq (p w : Char → Bool) :
    ∀ l : List Char, (∀ c ∈ l, w c = p c) →
      (findallAux p w none false l = maximalRuns p l ∧
        ∀ run : List Char, findallAux p w (some run) true l =
          (run.reverse ++ l.takeWhile p) :: maximalRuns p (l.dropWhile p)) := by
  intro l
  induction l with
  | nil => exact fun _ => ⟨rfl, fun run => by simp [findallAux, maximalRuns]⟩
  | cons c cs ih =>
    intro h
    have hc : w c = p c := h c (List.mem_cons_self c cs)
    obtain ⟨ih1, ih2⟩ := ih (fun x hx => h x (List.mem_cons_of_mem c hx))
    constructor
    · cases hp : p c
      · rw [hp] at hc
        simp [findallAux, hp, hc, ih1, maximalRuns_cons]
      · simp [findallAux, hp, ih2 [c], maximalRuns_cons]
    · intro run
      cases hp : p c
      · rw [hp] at hc
        simp [findallAux, hp, hc, ih1, maximalRuns_cons,
          List.takeWhile_cons, List.dropWhile_cons]
      · simp [findallAux, hp, ih2 (c :: run), maximalRuns_cons,
          List.takeWhile_cons, List.dropWhile_cons]

theorem maximalRuns_congr (p q : Char → Bool) :
    ∀ (n : ℕ) (l : List Char), l.length ≤ n → (∀ c ∈ l, p c = q c) →
      maximalRuns p l = maximalRuns q l := by
  intro n
  induction n with
  | zero =>
    intro l hl _
    rw [List.eq_nil_of_length_eq_zero (Nat.le_zero.mp hl)]
    rfl
  | succ m ih =>
    intro l hl h
    match l with
    | [] => rfl
    | c :: cs =>
      rw [maximalRuns_cons, maximalRuns_cons, ← h c (List.mem_cons_self c cs)]
      have hcs : ∀ x ∈ cs, p x = q x := fun x hx => h x (List.mem_cons_of_mem c hx)
      have hlen : cs.length ≤ m := by
        simp only [List.length_cons] at hl
        omega
      have hsub : (cs.dropWhile q).length ≤ m :=
        le_trans (List.Sublist.length_le (List.dropWhile_sublist q)) hlen
      by_cases hp : p c = true
      · rw [if_pos hp, if_pos hp, takeWhile_congr cs hcs, dropWhile_congr cs hcs,
          ih (cs.dropWhile q) hsub
            (fun x hx => hcs x (List.Sublist.subset (List.dropWhile_sublist q) hx))]
      · rw [if_neg hp, if_neg hp]
        exact ih cs hlen hcs

theorem toNat_ofNat_lt (n : ℕ) (h : n < 55296) : (Char.ofNat n).toNat = n := by
  rw [Char.ofNat, dif_pos (Or.inl h)]
  rfl

theorem toLower_word_tok (c : Char) (hascii : c.toNat < 128) (hund : c ≠ '_') :
    wordChar (Char.toLower c) = tokChar (Char.toLower c) ∧
      asciiAlnum (Char.toLower c) = tokChar (Char.toLower c) := by
  have h95 : c.toNat ≠ 95 := by
    intro e
    apply hund
    have h0 := Char.ofNat_toNat c
    rw [e] at h0
    rw [← h0]
  rw [Char.toLower]
  split_ifs with hup
  · have h1 : (Char.ofNat (c.toNat + 32)).toNat = c.toNat + 32 :=
      toNat_ofNat_lt _ (by omega)
    have ht : tokChar (Char.ofNat (c.toNat + 32)) = true := by
      simp [tokChar, h1]
      omega
    have hw : wordChar (Char.ofNat (c.toNat + 32)) = true := by
      simp [wordChar, h1]
      omega
    have ha : asciiAlnum (Char.ofNat (c.toNat + 32)) = true := by
      simp [asciiAlnum, h1]
      omega
    exact ⟨hw.trans ht.symm, ha.trans ht.symm⟩
  · have hb : (65 ≤ c.toNat && c.toNat ≤ 90) = false := by
      simp only [Bool.and_eq_false_iff, decide_eq_false_iff_not]
      omega
    have hd : (c.toNat == 95) = false := by
      simp [h95]
    constructor
    · simp [wordChar, tokChar, hb, hd]
    · simp [asciiAlnum, tokChar, hb]

/-- C7 counterexample: on the input `"a_b"` the tokenizer returns no
token at all, while the maximal runs of ASCII alphanumeric characters of
the (lowercased) input are `"a"` and `"b"`: the regex word boundaries
`\b` reject a run adjacent to an underscore. -/
theorem tokenize_maximal_runs_cex :
    simple_tokenize "a_b" = [] ∧
    (maximalRuns asciiAlnum ("a_b".data.map Char.toLower)).map (fun cs => String.mk cs) =
      ["a", "b"] :=
  ⟨by decide, by decide⟩

/-- C7 (amended): on ASCII input containing no underscore,
`simple_tokenize` extracts, in source order, exactly the maximal runs of
ASCII alphanumeric characters of the lowercased text (in general a run
adjacent to a word character such as `'_'` is skipped because of the
`\b` assertions); it is a total function and returns the empty sequence
on empty input. -/
theorem simple_tokenize_runs (text : String)
    (hascii : ∀ c ∈ text.data, c.toNat < 128)
    (hund : ∀ c ∈ text.data, c ≠ '_') :
    simple_tokenize text =
      (maximalRuns asciiAlnum (text.data.map Char.toLower)).map (fun cs => String.mk cs) ∧
    simple_tokenize "" = [] := by
  constructor
  · rw [simple_tokenize]
    congr 1
    have hmem : ∀ c' ∈ text.data.map Char.toLower,
        wordChar c' = tokChar c' ∧ asciiAlnum c' = tokChar c' := by
      intro c' hc'
      obtain ⟨c, hc, rfl⟩ := List.mem_map.mp hc'
      exact toLower_word_tok c (hascii c hc) (hund c hc)
    rw [(findallAux_eq tokChar wordChar _ (fun c hc => (hmem c hc).1)).1]
    exact maximalRuns_congr tokChar asciiAlnum _ _ le_rfl
      (fun c hc => ((hmem c hc).2).symm)
  · rfl

/-- C7 witness: the amended characterization applied to a concrete
ASCII, underscore-free document. -/
theorem simple_tokenize_runs_witness :
    simple_tokenize "Hello, World 42!" =
      (maximalRuns asciiAlnum ("Hello, World 42!".data.map Char.toLower)).map
        (fun cs => String.mk cs) ∧
    simple_tokenize "" = [] :=
  simple_tokenize_runs "Hello, World 42!" (by decide) (by decide)

end MattrApp
